import Mathlib

/-!
Shallow embedding of the `simple-slotmap` Rust crate (`src/lib.rs`).

The crate implements a generational slot map:
* `Key` is a versioned handle `{ index : u32, generation : u32 }`,
  compared by bit-pattern equality of its packed 64-bit form;
* `Slot` is a storage cell whose `generation = 0` marks "empty";
* `SlotMap` owns a vector of slots, a free list (`openlist`) of reclaimed
  indices (a `Vec` used as a stack: push/pop at the end), and a monotonic
  generation counter.

Machine integers are modelled by `Nat` with explicit `% 2^32` where the Rust
code performs an `as u32` cast, and the `u32` overflow check of
`checked_add(1)` is the explicit test `generation = u32MAX`.  Fallible
operations return `Except Error`; methods that mutate `self` in Rust return a
`result × new-state` pair here.  `std::mem::zeroed()` (used by
`Slot::unchecked_remove` to replace an extracted value) is modelled by the
`Inhabited` default value; no property below inspects the payload of an
empty slot.
-/

namespace SlotmapModel

/-- `u32::MAX`. -/
def u32MAX : Nat := 4294967295

/-- `2^32`; a `usize → u32` cast (`i as u32`) is `i % u32SIZE`. -/
def u32SIZE : Nat := 4294967296

/-- The error taxonomy of the crate (`mod error`). -/
inductive Error where
  | IndexOutOfBounds
  | MaxGenerationReached
  | SlotNotEmpty
  | NoFreeSlots
  | InvalidArgument
deriving DecidableEq, Repr

/-- `KeyInner`: the two 32-bit halves of a key.  The Rust `union Key` is
read and written only through this struct view, so the model keeps the two
fields directly; bit-pattern (u64) equality is `Key.toBits` equality. -/
structure Key where
  index : Nat
  generation : Nat
deriving DecidableEq, Repr

/-- The packed 64-bit form of a key (the `x : u64` view of the union):
`index` in the low 32 bits, `generation` in the high 32 bits. -/
def Key.toBits (k : Key) : Nat :=
  k.index % u32SIZE + u32SIZE * (k.generation % u32SIZE)

/-- `Key::new(index, generation)`: fails with `IndexOutOfBounds` when the
truncated index (`index as u32`) is the reserved sentinel `u32::MAX`. -/
def Key.new (index : Nat) (generation : Nat) : Except Error Key :=
  if index % u32SIZE = u32MAX then
    Except.error Error.IndexOutOfBounds
  else
    Except.ok ⟨index % u32SIZE, generation⟩

/-- `Key::new_special(generation)`: always succeeds, index = `u32::MAX`. -/
def Key.new_special (generation : Nat) : Except Error Key :=
  Except.ok ⟨u32MAX, generation⟩

/-- `From<u64> for Key`: reinterpret an arbitrary 64-bit value as a key. -/
def Key.ofU64 (x : Nat) : Key :=
  ⟨x % u32SIZE, x / u32SIZE % u32SIZE⟩

/-- A storage cell: `generation = 0` marks an empty slot. -/
structure Slot (V : Type) where
  generation : Nat
  value : V
deriving DecidableEq, Repr

/-- `Slot::new(generation, value)`. -/
def Slot.new (generation : Nat) (value : V) : Slot V :=
  ⟨generation, value⟩

/-- `Slot::is_empty`. -/
def Slot.is_empty (slot : Slot V) : Bool :=
  slot.generation == 0

/-- `Slot::remove(key)`: extracts the value when the slot is occupied and
the key generation matches; the extracted value is replaced by a zeroed
value (modelled by `default`) and the slot generation reset to 0. -/
def Slot.remove [Inhabited V] (slot : Slot V) (k : Key) : Option V × Slot V :=
  if 0 < slot.generation ∧ k.generation = slot.generation then
    (some slot.value, ⟨0, default⟩)
  else
    (none, slot)

/-- `Slot::get(key)`. -/
def Slot.get (slot : Slot V) (k : Key) : Option V :=
  if 0 < slot.generation ∧ k.generation = slot.generation then
    some slot.value
  else
    none

/-- `Slot::get_mut(key)`: same guard as `get`; the model returns the value
the returned `&mut V` reference points to (the call itself mutates nothing). -/
def Slot.get_mut (slot : Slot V) (k : Key) : Option V :=
  if 0 < slot.generation ∧ k.generation = slot.generation then
    some slot.value
  else
    none

/-- The slot map: `max_slots`, generation counter, slot vector, free list. -/
structure SlotMap (V : Type) where
  max_slots : Nat
  generation : Nat
  data : List (Slot V)
  openlist : List Nat
deriving DecidableEq, Repr

/-- `SlotMap::new(initial_slots, max_slots)` (arguments are `u32`).
`Vec::with_capacity` only reserves storage, so both vectors start empty. -/
def SlotMap.new (V : Type) (initial_slots max_slots : Nat) :
    Except Error (SlotMap V) :=
  if max_slots < initial_slots then Except.error Error.InvalidArgument
  else if max_slots = u32MAX then Except.error Error.InvalidArgument
  else Except.ok ⟨max_slots, 0, [], []⟩

/-- `SlotMap::increment_generation`: `checked_add(1)` on a `u32` fails
exactly at `u32::MAX`, leaving the counter unchanged. -/
def SlotMap.increment_generation (s : SlotMap V) :
    Except Error Nat × SlotMap V :=
  if s.generation = u32MAX then
    (Except.error Error.MaxGenerationReached, s)
  else
    (Except.ok (s.generation + 1), { s with generation := s.generation + 1 })

/-- `Vec::pop`: removes and returns the last element. -/
def vecPop (l : List Nat) : Option (Nat × List Nat) :=
  match l.getLast? with
  | none => none
  | some x => some (x, l.dropLast)

/-- `SlotMap::remove(key)`: generation-checked extraction; on success the
slot is reset to empty and its index pushed onto the free list. -/
def SlotMap.remove [Inhabited V] (s : SlotMap V) (k : Key) :
    Option V × SlotMap V :=
  match s.data[k.index]? with
  | none => (none, s)
  | some slot =>
    match Slot.remove slot k with
    | (none, _) => (none, s)
    | (some v, slotEmptied) =>
      (some v, { s with
        data := s.data.set k.index slotEmptied,
        openlist := s.openlist ++ [k.index] })

/-- `SlotMap::get(key)`. -/
def SlotMap.get (s : SlotMap V) (k : Key) : Option V :=
  match s.data[k.index]? with
  | none => none
  | some slot => Slot.get slot k

/-- `SlotMap::get_mut(key)` (model of the lookup; see `Slot.get_mut`). -/
def SlotMap.get_mut (s : SlotMap V) (k : Key) : Option V :=
  match s.data[k.index]? with
  | none => none
  | some slot => Slot.get_mut slot k

/-- `SlotMap::add(value)`: increment the generation counter first; then
either reuse the most recently freed slot (popped off `openlist`, with a
defensive emptiness check) or append a new slot when below `max_slots`.
Note the Rust code pops the free list and, in the reuse branch, stores the
value before constructing the key, so those state changes persist even on
the (defensive) error paths — the model reproduces that. -/
def SlotMap.add [Inhabited V] (s : SlotMap V) (v : V) :
    Except Error Key × SlotMap V :=
  match s.increment_generation with
  | (Except.error e, s1) => (Except.error e, s1)
  | (Except.ok g, s1) =>
    match vecPop s1.openlist with
    | some (index, rest) =>
      let s2 : SlotMap V := { s1 with openlist := rest }
      match s2.data[index]? with
      | some slot =>
        if slot.is_empty then
          (Key.new index g, { s2 with data := s2.data.set index ⟨g, v⟩ })
        else
          (Except.error Error.SlotNotEmpty, s2)
      | none => (Except.error Error.IndexOutOfBounds, s2)
    | none =>
      let index := s1.data.length
      if s1.max_slots ≤ index then
        (Except.error Error.NoFreeSlots, s1)
      else
        (Key.new index g, { s1 with data := s1.data ++ [Slot.new g v] })

/-- `SlotMap::get_unique_key`: mint a fresh generation and wrap it in a
sentinel-index key. -/
def SlotMap.get_unique_key (s : SlotMap V) : Except Error Key × SlotMap V :=
  match s.increment_generation with
  | (Except.error e, s1) => (Except.error e, s1)
  | (Except.ok g, s1) => (Key.new_special g, s1)

/-- `SlotMap::len`: number of occupied slots. -/
def SlotMap.len (s : SlotMap V) : Nat :=
  s.data.length - s.openlist.length

/-! ## Operation sequences and reachable states -/

/-- One public call on a `SlotMap`.  `get` and `get_mut` are lookups: the
calls themselves do not modify the map. -/
inductive Op (V : Type) where
  | add (v : V)
  | remove (k : Key)
  | get (k : Key)
  | get_mut (k : Key)
  | get_unique_key
deriving DecidableEq, Repr

/-- The state after one call (discarding the call's result). -/
def applyOp [Inhabited V] (op : Op V) (s : SlotMap V) : SlotMap V :=
  match op with
  | Op.add v => (s.add v).2
  | Op.remove k => (s.remove k).2
  | Op.get _ => s
  | Op.get_mut _ => s
  | Op.get_unique_key => s.get_unique_key.2

/-- State after a sequence of calls. -/
def runOps [Inhabited V] (ops : List (Op V)) (s : SlotMap V) : SlotMap V :=
  ops.foldl (fun t op => applyOp op t) s

/-- States reachable from a successful `SlotMap::new` (whose arguments are
`u32`, hence `< 2^32`) by any sequence of public calls. -/
inductive Reachable [Inhabited V] : SlotMap V → Prop where
  | base (initial_slots max_slots : Nat) (s : SlotMap V) :
      initial_slots < u32SIZE → max_slots < u32SIZE →
      SlotMap.new V initial_slots max_slots = Except.ok s → Reachable s
  | step (s : SlotMap V) (op : Op V) : Reachable s → Reachable (applyOp op s)

/-! ## The state invariant -/

/-- Whether position `i` of a slot vector exists and is currently empty. -/
def isEmptyAtL (l : List (Slot V)) (i : Nat) : Bool :=
  match l[i]? with
  | some slot => slot.generation == 0
  | none => false

/-- Whether slot `i` exists and is currently empty. -/
def isEmptyAt (s : SlotMap V) (i : Nat) : Bool :=
  isEmptyAtL s.data i

/-- Number of occupied slots, counted directly from the data vector. -/
def occupiedCount (s : SlotMap V) : Nat :=
  s.data.countP (fun slot => decide (0 < slot.generation))

/-- The `SlotMap` state invariant from the spec: `data.len() <= max_slots`
(with `max_slots` strictly below the sentinel `u32::MAX`), `openlist` holds
exactly the indices of currently-empty slots with no duplicates, and the
occupied count accounts for everything not on the free list. -/
structure Inv (s : SlotMap V) : Prop where
  lenLe : s.data.length ≤ s.max_slots
  maxLt : s.max_slots < u32MAX
  nodup : s.openlist.Nodup
  memEmpty : ∀ i ∈ s.openlist, isEmptyAt s i = true
  emptyMem : ∀ i, i < s.data.length → isEmptyAt s i = true → i ∈ s.openlist
  occ : occupiedCount s + s.openlist.length = s.data.length

/-! ## List helper lemmas -/

theorem countP_set_aux (p : α → Bool) :
    ∀ (l : List α) (i : Nat) (a : α) (h : i < l.length),
      (l.set i a).countP p + (if p (l.get ⟨i, h⟩) then 1 else 0)
        = l.countP p + (if p a then 1 else 0) := by
  intro l
  induction l with
  | nil => intro i a h; simp at h
  | cons b t ih =>
    intro i a h
    cases i with
    | zero =>
      simp only [List.set, List.get, List.countP_cons]
      omega
    | succ j =>
      simp only [List.set, List.get, List.countP_cons]
      have hj : j < t.length := by simpa using h
      have := ih j a hj
      omega

theorem vecPop_eq_none {l : List Nat} : vecPop l = none ↔ l = [] := by
  unfold vecPop
  cases hl : l.getLast? with
  | none => simpa using List.getLast?_eq_none_iff.mp hl
  | some x =>
    simp only [reduceCtorEq, false_iff]
    intro h
    subst h
    simp at hl

theorem vecPop_eq_some {l rest : List Nat} {x : Nat}
    (h : vecPop l = some (x, rest)) : l = rest ++ [x] := by
  unfold vecPop at h
  cases hl : l.getLast? with
  | none => rw [hl] at h; exact absurd h (by simp)
  | some y =>
    rw [hl] at h
    have hne : l ≠ [] := by
      intro hnil; subst hnil; simp at hl
    have hy : y = l.getLast hne := by
      have := List.getLast?_eq_getLast l hne
      rw [hl] at this
      exact (Option.some_inj.mp this)
    have hpair : y = x ∧ l.dropLast = rest := by
      constructor
      · exact congrArg Prod.fst (Option.some_inj.mp h)
      · exact congrArg Prod.snd (Option.some_inj.mp h)
    rcases hpair with ⟨rfl, hdl⟩
    rw [← hdl, hy]
    exact (List.dropLast_concat_getLast hne).symm

/-! ## Branch characterizations of the operations -/

theorem add_eq_maxgen [Inhabited V] (s : SlotMap V) (v : V)
    (h : s.generation = u32MAX) :
    s.add v = (Except.error Error.MaxGenerationReached, s) := by
  unfold SlotMap.add SlotMap.increment_generation
  simp [h]

theorem add_eq_reuse [Inhabited V] (s : SlotMap V) (v : V) {i : Nat}
    {rest : List Nat} {slot : Slot V}
    (hg : s.generation ≠ u32MAX) (hpop : vecPop s.openlist = some (i, rest))
    (hslot : s.data[i]? = some slot) (hempty : slot.generation = 0) :
    s.add v = (Key.new i (s.generation + 1),
      ⟨s.max_slots, s.generation + 1,
        s.data.set i ⟨s.generation + 1, v⟩, rest⟩) := by
  unfold SlotMap.add SlotMap.increment_generation
  simp [hg, hpop, hslot, Slot.is_empty, hempty]

theorem add_eq_notEmpty [Inhabited V] (s : SlotMap V) (v : V) {i : Nat}
    {rest : List Nat} {slot : Slot V}
    (hg : s.generation ≠ u32MAX) (hpop : vecPop s.openlist = some (i, rest))
    (hslot : s.data[i]? = some slot) (hocc : slot.generation ≠ 0) :
    s.add v = (Except.error Error.SlotNotEmpty,
      ⟨s.max_slots, s.generation + 1, s.data, rest⟩) := by
  unfold SlotMap.add SlotMap.increment_generation
  simp [hg, hpop, hslot, Slot.is_empty, hocc]

theorem add_eq_oob [Inhabited V] (s : SlotMap V) (v : V) {i : Nat}
    {rest : List Nat}
    (hg : s.generation ≠ u32MAX) (hpop : vecPop s.openlist = some (i, rest))
    (hslot : s.data[i]? = none) :
    s.add v = (Except.error Error.IndexOutOfBounds,
      ⟨s.max_slots, s.generation + 1, s.data, rest⟩) := by
  unfold SlotMap.add SlotMap.increment_generation
  simp [hg, hpop, hslot]

theorem add_eq_full [Inhabited V] (s : SlotMap V) (v : V)
    (hg : s.generation ≠ u32MAX) (hpop : vecPop s.openlist = none)
    (hfull : s.max_slots ≤ s.data.length) :
    s.add v = (Except.error Error.NoFreeSlots,
      { s with generation := s.generation + 1 }) := by
  unfold SlotMap.add SlotMap.increment_generation
  simp [hg, hpop, hfull]

theorem add_eq_append [Inhabited V] (s : SlotMap V) (v : V)
    (hg : s.generation ≠ u32MAX) (hpop : vecPop s.openlist = none)
    (hlt : s.data.length < s.max_slots) :
    s.add v = (Key.new s.data.length (s.generation + 1),
      ⟨s.max_slots, s.generation + 1,
        s.data ++ [⟨s.generation + 1, v⟩], s.openlist⟩) := by
  unfold SlotMap.add SlotMap.increment_generation
  simp [hg, hpop, Slot.new, Nat.not_le.mpr hlt]

theorem remove_eq_oob [Inhabited V] (s : SlotMap V) (k : Key)
    (h : s.data[k.index]? = none) : s.remove k = (none, s) := by
  unfold SlotMap.remove
  simp [h]

theorem remove_eq_stale [Inhabited V] (s : SlotMap V) (k : Key) {slot : Slot V}
    (hslot : s.data[k.index]? = some slot)
    (h : ¬(0 < slot.generation ∧ k.generation = slot.generation)) :
    s.remove k = (none, s) := by
  unfold SlotMap.remove Slot.remove
  simp [hslot, h]

theorem remove_eq_hit [Inhabited V] (s : SlotMap V) (k : Key) {slot : Slot V}
    (hslot : s.data[k.index]? = some slot)
    (hocc : 0 < slot.generation) (hgen : k.generation = slot.generation) :
    s.remove k = (some slot.value,
      ⟨s.max_slots, s.generation, s.data.set k.index ⟨0, default⟩,
        s.openlist ++ [k.index]⟩) := by
  unfold SlotMap.remove Slot.remove
  simp [hslot, hocc, hgen]

theorem get_eq_oob (s : SlotMap V) (k : Key)
    (h : s.data[k.index]? = none) : s.get k = none := by
  unfold SlotMap.get
  simp [h]

theorem get_eq_stale (s : SlotMap V) (k : Key) {slot : Slot V}
    (hslot : s.data[k.index]? = some slot)
    (h : ¬(0 < slot.generation ∧ k.generation = slot.generation)) :
    s.get k = none := by
  unfold SlotMap.get Slot.get
  simp [hslot, h]

theorem get_eq_hit (s : SlotMap V) (k : Key) {slot : Slot V}
    (hslot : s.data[k.index]? = some slot)
    (hocc : 0 < slot.generation) (hgen : k.generation = slot.generation) :
    s.get k = some slot.value := by
  unfold SlotMap.get Slot.get
  simp [hslot, hocc, hgen]

theorem get_mut_eq_get (s : SlotMap V) (k : Key) : s.get_mut k = s.get k := by
  unfold SlotMap.get_mut SlotMap.get Slot.get Slot.get_mut
  rfl

theorem get_unique_key_eq_maxgen (s : SlotMap V) (h : s.generation = u32MAX) :
    s.get_unique_key = (Except.error Error.MaxGenerationReached, s) := by
  unfold SlotMap.get_unique_key SlotMap.increment_generation
  simp [h]

theorem get_unique_key_eq_ok (s : SlotMap V) (h : s.generation ≠ u32MAX) :
    s.get_unique_key = (Except.ok ⟨u32MAX, s.generation + 1⟩,
      { s with generation := s.generation + 1 }) := by
  unfold SlotMap.get_unique_key SlotMap.increment_generation Key.new_special
  simp [h]

/-! ## Lemmas about `isEmptyAtL` -/

theorem isEmptyAtL_some {l : List (Slot V)} {i : Nat} {slot : Slot V}
    (h : l[i]? = some slot) : isEmptyAtL l i = (slot.generation == 0) := by
  unfold isEmptyAtL
  rw [h]

theorem isEmptyAtL_true_lt {l : List (Slot V)} {i : Nat}
    (h : isEmptyAtL l i = true) : i < l.length := by
  unfold isEmptyAtL at h
  cases hl : l[i]? with
  | none => rw [hl] at h; simp at h
  | some slot =>
    rcases List.getElem?_eq_some_iff.mp hl with ⟨hlt, _⟩
    exact hlt

theorem isEmptyAtL_true_iff {l : List (Slot V)} {i : Nat} :
    isEmptyAtL l i = true ↔
      ∃ slot, l[i]? = some slot ∧ slot.generation = 0 := by
  constructor
  · intro h
    have hlt := isEmptyAtL_true_lt h
    refine ⟨l[i], List.getElem?_eq_getElem hlt, ?_⟩
    unfold isEmptyAtL at h
    rw [List.getElem?_eq_getElem hlt] at h
    simpa using h
  · rintro ⟨slot, hsl, hgen⟩
    rw [isEmptyAtL_some hsl]
    simp [hgen]

theorem isEmptyAtL_set_ne {l : List (Slot V)} {i j : Nat} (h : i ≠ j)
    (a : Slot V) : isEmptyAtL (l.set i a) j = isEmptyAtL l j := by
  unfold isEmptyAtL
  rw [List.getElem?_set_ne h]

theorem isEmptyAtL_set_self {l : List (Slot V)} {i : Nat} (h : i < l.length)
    (a : Slot V) : isEmptyAtL (l.set i a) i = (a.generation == 0) := by
  unfold isEmptyAtL
  rw [List.getElem?_set_self h]

theorem isEmptyAtL_append_left {l l' : List (Slot V)} {i : Nat}
    (h : i < l.length) : isEmptyAtL (l ++ l') i = isEmptyAtL l i := by
  unfold isEmptyAtL
  rw [List.getElem?_append_left h]

theorem isEmptyAtL_concat_self {l : List (Slot V)} (a : Slot V) :
    isEmptyAtL (l ++ [a]) l.length = (a.generation == 0) := by
  unfold isEmptyAtL
  rw [List.getElem?_concat_length]

/-! ## Invariant preservation -/

theorem inv_set_generation (s : SlotMap V) (g : Nat) (h : Inv s) :
    Inv { s with generation := g } := by
  obtain ⟨a, b, c, d, e, f⟩ := h
  exact ⟨a, b, c, d, e, f⟩

theorem inv_new {initial max : Nat} {s : SlotMap V}
    (hmax : max < u32SIZE) (h : SlotMap.new V initial max = Except.ok s) :
    Inv s := by
  unfold SlotMap.new at h
  by_cases h1 : max < initial
  · simp [h1] at h
  · by_cases h2 : max = u32MAX
    · simp [h1, h2] at h
    · simp [h1, h2] at h
      subst h
      refine ⟨by simp, ?_, List.nodup_nil, by simp, by simp, by simp [occupiedCount]⟩
      show max < u32MAX
      have hs : u32SIZE = u32MAX + 1 := by decide
      omega

theorem inv_add [Inhabited V] (s : SlotMap V) (v : V) (h : Inv s) :
    Inv (s.add v).2 := by
  by_cases hg : s.generation = u32MAX
  · rw [add_eq_maxgen s v hg]
    exact h
  · cases hpop : vecPop s.openlist with
    | none =>
      have hol : s.openlist = [] := vecPop_eq_none.mp hpop
      by_cases hfull : s.max_slots ≤ s.data.length
      · rw [add_eq_full s v hg hpop hfull]
        exact inv_set_generation s _ h
      · push_neg at hfull
        rw [add_eq_append s v hg hpop hfull]
        refine ⟨by simpa using hfull, h.maxLt, h.nodup, ?_, ?_, ?_⟩
        · intro j hj
          rw [hol] at hj
          simp at hj
        · intro j hj hje
          simp only [List.length_append, List.length_singleton] at hj
          rcases Nat.lt_or_ge j s.data.length with hlt | hge
          · rw [isEmptyAt, isEmptyAtL_append_left hlt] at hje
            have := h.emptyMem j hlt hje
            rw [hol] at this
            simp at this
          · have hje2 : j = s.data.length := by omega
            subst hje2
            rw [isEmptyAt, isEmptyAtL_concat_self] at hje
            simp at hje
        · have hocc := h.occ
          unfold occupiedCount at hocc ⊢
          rw [hol] at hocc ⊢
          have h1 : (List.countP (fun sl => decide (0 < sl.generation))
              [(⟨s.generation + 1, v⟩ : Slot V)]) = 1 := by
            simp [List.countP_cons]
          simp only [List.countP_append, List.length_append,
            List.length_singleton, List.length_nil, h1] at hocc ⊢
          omega
    | some pair =>
      obtain ⟨i, rest⟩ := pair
      have hdec : s.openlist = rest ++ [i] := vecPop_eq_some hpop
      have hmem : i ∈ s.openlist := by
        rw [hdec]
        exact List.mem_append_right _ (by simp)
      have hemp := h.memEmpty i hmem
      obtain ⟨slot, hslot, hslotgen⟩ := isEmptyAtL_true_iff.mp hemp
      rw [add_eq_reuse s v hg hpop hslot hslotgen]
      obtain ⟨hilt, hiel⟩ := List.getElem?_eq_some_iff.mp hslot
      have hnodup2 : (rest ++ [i]).Nodup := hdec ▸ h.nodup
      rw [List.nodup_append] at hnodup2
      obtain ⟨hnr, -, hdisj⟩ := hnodup2
      have hinotin : i ∉ rest := fun hh => hdisj hh (by simp)
      refine ⟨by simpa using h.lenLe, h.maxLt, hnr, ?_, ?_, ?_⟩
      · intro j hj
        have hji : j ≠ i := fun hh => hinotin (hh ▸ hj)
        have hje := h.memEmpty j (hdec ▸ List.mem_append_left _ hj)
        rw [isEmptyAt, isEmptyAtL_set_ne (Ne.symm hji)]
        exact hje
      · intro j hj hje
        simp only [List.length_set] at hj
        by_cases hji : j = i
        · subst hji
          rw [isEmptyAt, isEmptyAtL_set_self hilt] at hje
          simp at hje
        · rw [isEmptyAt, isEmptyAtL_set_ne (fun hh => hji hh.symm)] at hje
          have := h.emptyMem j hj hje
          rw [hdec] at this
          rcases List.mem_append.mp this with h1 | h1
          · exact h1
          · simp at h1
            exact absurd h1 hji
      · have key := countP_set_aux (fun sl => decide (0 < sl.generation))
          s.data i ⟨s.generation + 1, v⟩ hilt
        have hgetel : s.data.get ⟨i, hilt⟩ = slot := by
          rw [List.get_eq_getElem]
          exact hiel
        rw [hgetel] at key
        simp [hslotgen] at key
        have hocc := h.occ
        rw [hdec] at hocc
        unfold occupiedCount at hocc ⊢
        simp only [List.length_set, List.length_append,
          List.length_singleton] at *
        omega

theorem inv_remove [Inhabited V] (s : SlotMap V) (k : Key) (h : Inv s) :
    Inv (s.remove k).2 := by
  cases hslot : s.data[k.index]? with
  | none =>
    rw [remove_eq_oob s k hslot]
    exact h
  | some slot =>
    by_cases hcond : 0 < slot.generation ∧ k.generation = slot.generation
    · rw [remove_eq_hit s k hslot hcond.1 hcond.2]
      obtain ⟨hilt, hiel⟩ := List.getElem?_eq_some_iff.mp hslot
      have hnotin : k.index ∉ s.openlist := by
        intro hmem
        have := h.memEmpty _ hmem
        rw [isEmptyAt, isEmptyAtL_some hslot] at this
        simp at this
        omega
      refine ⟨by simpa using h.lenLe, h.maxLt, ?_, ?_, ?_, ?_⟩
      · rw [List.nodup_append]
        refine ⟨h.nodup, List.nodup_singleton _, ?_⟩
        intro a ha hb
        simp at hb
        subst hb
        exact hnotin ha
      · intro j hj
        rcases List.mem_append.mp hj with hj1 | hj1
        · have hji : j ≠ k.index := fun hh => hnotin (hh ▸ hj1)
          have hje := h.memEmpty j hj1
          rw [isEmptyAt, isEmptyAtL_set_ne (Ne.symm hji)]
          exact hje
        · simp at hj1
          subst hj1
          rw [isEmptyAt, isEmptyAtL_set_self hilt]
          simp
      · intro j hj hje
        simp only [List.length_set] at hj
        by_cases hji : j = k.index
        · subst hji
          exact List.mem_append_right _ (by simp)
        · rw [isEmptyAt, isEmptyAtL_set_ne (fun hh => hji hh.symm)] at hje
          exact List.mem_append_left _ (h.emptyMem j hj hje)
      · have key := countP_set_aux (fun sl => decide (0 < sl.generation))
          s.data k.index ⟨0, default⟩ hilt
        have hgetel : s.data.get ⟨k.index, hilt⟩ = slot := by
          rw [List.get_eq_getElem]
          exact hiel
        rw [hgetel] at key
        simp [hcond.1] at key
        have hocc := h.occ
        unfold occupiedCount at hocc ⊢
        simp only [List.length_set, List.length_append,
          List.length_singleton] at *
        omega
    · rw [remove_eq_stale s k hslot hcond]
      exact h

theorem inv_get_unique_key (s : SlotMap V) (h : Inv s) :
    Inv s.get_unique_key.2 := by
  by_cases hg : s.generation = u32MAX
  · rw [get_unique_key_eq_maxgen s hg]
    exact h
  · rw [get_unique_key_eq_ok s hg]
    exact inv_set_generation s _ h

theorem inv_applyOp [Inhabited V] (op : Op V) (s : SlotMap V) (h : Inv s) :
    Inv (applyOp op s) := by
  cases op with
  | add v => exact inv_add s v h
  | remove k => exact inv_remove s k h
  | get k => exact h
  | get_mut k => exact h
  | get_unique_key => exact inv_get_unique_key s h

theorem inv_reachable [Inhabited V] (s : SlotMap V) (h : Reachable s) :
    Inv s := by
  induction h with
  | base initial max s hinit hmax hnew => exact inv_new hmax hnew
  | step s op _ ih => exact inv_applyOp op s ih

/-! ## How each operation changes the slot vector and the counter -/

theorem add_data_at [Inhabited V] (s : SlotMap V) (v : V) (j : Nat) :
    (s.add v).2.data[j]? = s.data[j]? ∨
    (∃ slotOld : Slot V, s.data[j]? = some slotOld ∧ slotOld.generation = 0 ∧
      (s.add v).2.data[j]? = some ⟨s.generation + 1, v⟩) ∨
    (s.data[j]? = none ∧
      (s.add v).2.data[j]? = some ⟨s.generation + 1, v⟩) := by
  by_cases hg : s.generation = u32MAX
  · rw [add_eq_maxgen s v hg]
    left
    rfl
  · cases hpop : vecPop s.openlist with
    | none =>
      by_cases hfull : s.max_slots ≤ s.data.length
      · rw [add_eq_full s v hg hpop hfull]
        left
        rfl
      · push_neg at hfull
        rw [add_eq_append s v hg hpop hfull]
        rcases Nat.lt_trichotomy j s.data.length with hlt | heq | hgt
        · left
          exact List.getElem?_append_left hlt
        · right; right
          subst heq
          exact ⟨List.getElem?_eq_none (Nat.le_refl _),
            List.getElem?_concat_length _ _⟩
        · left
          have h1 : (s.data ++ [(⟨s.generation + 1, v⟩ : Slot V)])[j]? = none :=
            List.getElem?_eq_none (by simp; omega)
          have h2 : s.data[j]? = none :=
            List.getElem?_eq_none (by omega)
          show (s.data ++ [(⟨s.generation + 1, v⟩ : Slot V)])[j]? = s.data[j]?
          rw [h1, h2]
    | some pair =>
      obtain ⟨i, rest⟩ := pair
      cases hslot : s.data[i]? with
      | none =>
        rw [add_eq_oob s v hg hpop hslot]
        left
        rfl
      | some slot =>
        by_cases hemp : slot.generation = 0
        · rw [add_eq_reuse s v hg hpop hslot hemp]
          by_cases hji : j = i
          · subst hji
            right; left
            obtain ⟨hlt, -⟩ := List.getElem?_eq_some_iff.mp hslot
            exact ⟨slot, hslot, hemp, List.getElem?_set_self hlt⟩
          · left
            exact List.getElem?_set_ne (fun hh => hji hh.symm)
        · rw [add_eq_notEmpty s v hg hpop hslot hemp]
          left
          rfl

theorem remove_data_at [Inhabited V] (s : SlotMap V) (k' : Key) (j : Nat) :
    (s.remove k').2.data[j]? = s.data[j]? ∨
    (j = k'.index ∧ ∃ slotOld : Slot V, s.data[j]? = some slotOld ∧
      slotOld.generation = k'.generation ∧ 0 < slotOld.generation ∧
      (s.remove k').2.data[j]? = some ⟨0, default⟩) := by
  cases hslot : s.data[k'.index]? with
  | none =>
    rw [remove_eq_oob s k' hslot]
    left
    rfl
  | some slot =>
    by_cases hcond : 0 < slot.generation ∧ k'.generation = slot.generation
    · rw [remove_eq_hit s k' hslot hcond.1 hcond.2]
      by_cases hji : j = k'.index
      · subst hji
        right
        obtain ⟨hlt, -⟩ := List.getElem?_eq_some_iff.mp hslot
        exact ⟨rfl, slot, hslot, hcond.2.symm, hcond.1,
          List.getElem?_set_self hlt⟩
      · left
        exact List.getElem?_set_ne (fun hh => hji hh.symm)
    · rw [remove_eq_stale s k' hslot hcond]
      left
      rfl

theorem add_snd_gen [Inhabited V] (s : SlotMap V) (v : V) :
    (s.add v).2.generation = s.generation ∨
    (s.add v).2.generation = s.generation + 1 := by
  by_cases hg : s.generation = u32MAX
  · rw [add_eq_maxgen s v hg]
    left
    rfl
  · cases hpop : vecPop s.openlist with
    | none =>
      by_cases hfull : s.max_slots ≤ s.data.length
      · rw [add_eq_full s v hg hpop hfull]
        right
        rfl
      · rw [add_eq_append s v hg hpop (by omega)]
        right
        rfl
    | some pair =>
      obtain ⟨i, rest⟩ := pair
      cases hslot : s.data[i]? with
      | none =>
        rw [add_eq_oob s v hg hpop hslot]
        right
        rfl
      | some slot =>
        by_cases hemp : slot.generation = 0
        · rw [add_eq_reuse s v hg hpop hslot hemp]
          right
          rfl
        · rw [add_eq_notEmpty s v hg hpop hslot hemp]
          right
          rfl

theorem remove_snd_state [Inhabited V] (s : SlotMap V) (k : Key) :
    (s.remove k).2.generation = s.generation ∧
    (s.remove k).2.max_slots = s.max_slots := by
  cases hslot : s.data[k.index]? with
  | none =>
    rw [remove_eq_oob s k hslot]
    exact ⟨rfl, rfl⟩
  | some slot =>
    by_cases hcond : 0 < slot.generation ∧ k.generation = slot.generation
    · rw [remove_eq_hit s k hslot hcond.1 hcond.2]
      exact ⟨rfl, rfl⟩
    · rw [remove_eq_stale s k hslot hcond]
      exact ⟨rfl, rfl⟩

theorem get_unique_key_snd [Inhabited V] (s : SlotMap V) :
    s.get_unique_key.2.data = s.data ∧
    s.get_unique_key.2.openlist = s.openlist ∧
    s.generation ≤ s.get_unique_key.2.generation := by
  by_cases hg : s.generation = u32MAX
  · rw [get_unique_key_eq_maxgen s hg]
    exact ⟨rfl, rfl, Nat.le_refl _⟩
  · rw [get_unique_key_eq_ok s hg]
    exact ⟨rfl, rfl, Nat.le_succ _⟩

theorem applyOp_gen_mono [Inhabited V] (op : Op V) (s : SlotMap V) :
    s.generation ≤ (applyOp op s).generation := by
  cases op with
  | add v =>
    rcases add_snd_gen s v with h | h
    · rw [applyOp, h]
    · rw [applyOp, h]
      omega
  | remove k =>
    rw [applyOp, (remove_snd_state s k).1]
  | get k => exact Nat.le_refl _
  | get_mut k => exact Nat.le_refl _
  | get_unique_key => exact (get_unique_key_snd s).2.2

/-! ## Live and stale keys -/

/-- The key `k` currently addresses an occupied slot holding `v`, and its
generation is within the range already minted by the counter. -/
def KeyLive (s : SlotMap V) (k : Key) (v : V) : Prop :=
  s.data[k.index]? = some ⟨k.generation, v⟩ ∧
  0 < k.generation ∧ k.generation ≤ s.generation

/-- The key `k` is stale: the slot it addresses (if any) carries a
different generation, and the counter has already passed `k.generation`,
so no later mint can ever equal it again. -/
def StaleKey (s : SlotMap V) (k : Key) : Prop :=
  (∀ slot : Slot V, s.data[k.index]? = some slot →
    slot.generation ≠ k.generation) ∧
  0 < k.generation ∧ k.generation ≤ s.generation

theorem keyLive_applyOp [Inhabited V] {s : SlotMap V} {k : Key} {v : V}
    (op : Op V) (hop : op ≠ Op.remove k) (h : KeyLive s k v) :
    KeyLive (applyOp op s) k v := by
  obtain ⟨hdata, hpos, hle⟩ := h
  refine ⟨?_, hpos, Nat.le_trans hle (applyOp_gen_mono op s)⟩
  cases op with
  | add w =>
    rw [applyOp]
    rcases add_data_at s w k.index with h1 | ⟨slotOld, h1, h2, h3⟩ | ⟨h1, h3⟩
    · rw [h1, hdata]
    · rw [hdata] at h1
      cases Option.some_inj.mp h1
      simp at h2
      omega
    · rw [hdata] at h1
      exact absurd h1 (by simp)
  | remove k' =>
    rw [applyOp]
    rcases remove_data_at s k' k.index with h1 | ⟨hji, slotOld, h1, h2, h3, h4⟩
    · rw [h1, hdata]
    · rw [hdata] at h1
      cases Option.some_inj.mp h1
      simp at h2
      exfalso
      apply hop
      have hk : k' = k := by
        cases k'
        cases k
        simp_all
      rw [hk]
  | get k' => exact hdata
  | get_mut k' => exact hdata
  | get_unique_key =>
    rw [applyOp, (get_unique_key_snd s).1]
    exact hdata

theorem keyLive_runOps [Inhabited V] {s : SlotMap V} {k : Key} {v : V}
    (ops : List (Op V)) (hops : ∀ op ∈ ops, op ≠ Op.remove k)
    (h : KeyLive s k v) : KeyLive (runOps ops s) k v := by
  induction ops generalizing s with
  | nil => exact h
  | cons op rest ih =>
    rw [runOps, List.foldl_cons]
    exact ih (fun o ho => hops o (List.mem_cons_of_mem _ ho))
      (keyLive_applyOp op (hops op (List.mem_cons_self _ _)) h)

theorem staleKey_applyOp [Inhabited V] {s : SlotMap V} {k : Key}
    (op : Op V) (h : StaleKey s k) : StaleKey (applyOp op s) k := by
  obtain ⟨hdata, hpos, hle⟩ := h
  refine ⟨?_, hpos, Nat.le_trans hle (applyOp_gen_mono op s)⟩
  intro slot hslot
  cases op with
  | add w =>
    rw [applyOp] at hslot
    rcases add_data_at s w k.index with h1 | ⟨slotOld, h1, h2, h3⟩ | ⟨h1, h3⟩
    · rw [h1] at hslot
      exact hdata slot hslot
    · rw [h3] at hslot
      cases Option.some_inj.mp hslot
      simp
      omega
    · rw [h3] at hslot
      cases Option.some_inj.mp hslot
      simp
      omega
  | remove k' =>
    rw [applyOp] at hslot
    rcases remove_data_at s k' k.index with h1 | ⟨hji, slotOld, h1, h2, h3, h4⟩
    · rw [h1] at hslot
      exact hdata slot hslot
    · rw [h4] at hslot
      cases Option.some_inj.mp hslot
      simp
      omega
  | get k' => exact hdata slot hslot
  | get_mut k' => exact hdata slot hslot
  | get_unique_key =>
    rw [applyOp, (get_unique_key_snd s).1] at hslot
    exact hdata slot hslot

theorem staleKey_runOps [Inhabited V] {s : SlotMap V} {k : Key}
    (ops : List (Op V)) (h : StaleKey s k) : StaleKey (runOps ops s) k := by
  induction ops generalizing s with
  | nil => exact h
  | cons op rest ih =>
    rw [runOps, List.foldl_cons]
    exact ih (staleKey_applyOp op h)

theorem keyLive_get {s : SlotMap V} {k : Key} {v : V}
    (h : KeyLive s k v) : s.get k = some v :=
  get_eq_hit s k h.1 h.2.1 rfl

theorem keyLive_remove [Inhabited V] {s : SlotMap V} {k : Key} {v : V}
    (h : KeyLive s k v) :
    (s.remove k).1 = some v ∧ StaleKey (s.remove k).2 k := by
  obtain ⟨hdata, hpos, hle⟩ := h
  rw [remove_eq_hit s k hdata hpos rfl]
  obtain ⟨hlt, -⟩ := List.getElem?_eq_some_iff.mp hdata
  refine ⟨rfl, ?_, hpos, hle⟩
  intro slot hslot
  rw [List.getElem?_set_self hlt] at hslot
  cases Option.some_inj.mp hslot
  simp
  omega

theorem staleKey_get {s : SlotMap V} {k : Key} (h : StaleKey s k) :
    s.get k = none := by
  cases hslot : s.data[k.index]? with
  | none => exact get_eq_oob s k hslot
  | some slot =>
    refine get_eq_stale s k hslot ?_
    intro hcond
    exact h.1 slot hslot hcond.2.symm

theorem staleKey_remove [Inhabited V] {s : SlotMap V} {k : Key}
    (h : StaleKey s k) : s.remove k = (none, s) := by
  cases hslot : s.data[k.index]? with
  | none => exact remove_eq_oob s k hslot
  | some slot =>
    refine remove_eq_stale s k hslot ?_
    intro hcond
    exact h.1 slot hslot hcond.2.symm

theorem Key.new_ok {i g : Nat} {k : Key} (h : Key.new i g = Except.ok k) :
    k = ⟨i % u32SIZE, g⟩ ∧ i % u32SIZE ≠ u32MAX := by
  unfold Key.new at h
  by_cases hmod : i % u32SIZE = u32MAX
  · rw [if_pos hmod] at h
    exact absurd h (by simp)
  · rw [if_neg hmod] at h
    exact ⟨(Option.some_inj.mp (congrArg Except.toOption h)).symm, hmod⟩

theorem add_ok_mint [Inhabited V] {s s' : SlotMap V} {v : V} {k : Key}
    (h : s.add v = (Except.ok k, s')) :
    k.generation = s.generation + 1 ∧ k.index ≠ u32MAX ∧
    k.index < u32SIZE ∧ s'.generation = s.generation + 1 := by
  by_cases hg : s.generation = u32MAX
  · rw [add_eq_maxgen s v hg] at h
    exact absurd (congrArg Prod.fst h) (by simp)
  · cases hpop : vecPop s.openlist with
    | none =>
      by_cases hfull : s.max_slots ≤ s.data.length
      · rw [add_eq_full s v hg hpop hfull] at h
        exact absurd (congrArg Prod.fst h) (by simp)
      · push_neg at hfull
        rw [add_eq_append s v hg hpop hfull] at h
        have hkey := congrArg Prod.fst h
        have hst := congrArg Prod.snd h
        simp only at hkey hst
        obtain ⟨hk, hne⟩ := Key.new_ok hkey
        subst hk
        exact ⟨rfl, hne, Nat.mod_lt _ (by decide),
          by rw [← hst]⟩
    | some pair =>
      obtain ⟨i, rest⟩ := pair
      cases hslot : s.data[i]? with
      | none =>
        rw [add_eq_oob s v hg hpop hslot] at h
        exact absurd (congrArg Prod.fst h) (by simp)
      | some slot =>
        by_cases hemp : slot.generation = 0
        · rw [add_eq_reuse s v hg hpop hslot hemp] at h
          have hkey := congrArg Prod.fst h
          have hst := congrArg Prod.snd h
          simp only at hkey hst
          obtain ⟨hk, hne⟩ := Key.new_ok hkey
          subst hk
          exact ⟨rfl, hne, Nat.mod_lt _ (by decide),
            by rw [← hst]⟩
        · rw [add_eq_notEmpty s v hg hpop hslot hemp] at h
          exact absurd (congrArg Prod.fst h) (by simp)

theorem get_unique_key_ok {s s' : SlotMap V} {k : Key}
    (h : s.get_unique_key = (Except.ok k, s')) :
    k = ⟨u32MAX, s.generation + 1⟩ ∧
    s' = { s with generation := s.generation + 1 } ∧
    s.generation ≠ u32MAX := by
  by_cases hg : s.generation = u32MAX
  · rw [get_unique_key_eq_maxgen s hg] at h
    exact absurd (congrArg Prod.fst h) (by simp)
  · rw [get_unique_key_eq_ok s hg] at h
    have h1 := congrArg Prod.fst h
    have h2 := congrArg Prod.snd h
    simp only at h1 h2
    exact ⟨(Option.some_inj.mp (congrArg Except.toOption h1)).symm, h2.symm,
      hg⟩

theorem add_ok_keyLive [Inhabited V] {s s' : SlotMap V} {v : V} {k : Key}
    (hlen : s.data.length < u32SIZE) (h : s.add v = (Except.ok k, s')) :
    KeyLive s' k v ∧ k.generation = s.generation + 1 ∧
    s'.generation = s.generation + 1 ∧ k.index ≠ u32MAX := by
  by_cases hg : s.generation = u32MAX
  · rw [add_eq_maxgen s v hg] at h
    exact absurd (congrArg Prod.fst h) (by simp)
  · cases hpop : vecPop s.openlist with
    | none =>
      by_cases hfull : s.max_slots ≤ s.data.length
      · rw [add_eq_full s v hg hpop hfull] at h
        exact absurd (congrArg Prod.fst h) (by simp)
      · push_neg at hfull
        rw [add_eq_append s v hg hpop hfull] at h
        have hkey := congrArg Prod.fst h
        have hst := congrArg Prod.snd h
        simp only at hkey hst
        unfold Key.new at hkey
        by_cases hmod : s.data.length % u32SIZE = u32MAX
        · rw [if_pos hmod] at hkey
          exact absurd hkey (by simp)
        · rw [if_neg hmod] at hkey
          have hk : k = ⟨s.data.length % u32SIZE, s.generation + 1⟩ :=
            (Option.some_inj.mp (congrArg Except.toOption hkey)).symm
          have hmodeq : s.data.length % u32SIZE = s.data.length :=
            Nat.mod_eq_of_lt hlen
          subst hk
          rw [← hst]
          refine ⟨⟨?_, Nat.succ_pos _, Nat.le_refl _⟩, rfl, rfl, ?_⟩
          · show (s.data ++ [⟨s.generation + 1, v⟩])[s.data.length % u32SIZE]?
              = some ⟨s.generation + 1, v⟩
            rw [hmodeq]
            exact List.getElem?_concat_length _ _
          · show s.data.length % u32SIZE ≠ u32MAX
            exact hmod
    | some pair =>
      obtain ⟨i, rest⟩ := pair
      cases hslot : s.data[i]? with
      | none =>
        rw [add_eq_oob s v hg hpop hslot] at h
        exact absurd (congrArg Prod.fst h) (by simp)
      | some slot =>
        by_cases hemp : slot.generation = 0
        · rw [add_eq_reuse s v hg hpop hslot hemp] at h
          have hkey := congrArg Prod.fst h
          have hst := congrArg Prod.snd h
          simp only at hkey hst
          obtain ⟨hilt, -⟩ := List.getElem?_eq_some_iff.mp hslot
          have hmodeq : i % u32SIZE = i := Nat.mod_eq_of_lt (by omega)
          unfold Key.new at hkey
          by_cases hmod : i % u32SIZE = u32MAX
          · rw [if_pos hmod] at hkey
            exact absurd hkey (by simp)
          · rw [if_neg hmod] at hkey
            have hk : k = ⟨i % u32SIZE, s.generation + 1⟩ :=
              (Option.some_inj.mp (congrArg Except.toOption hkey)).symm
            subst hk
            rw [← hst]
            refine ⟨⟨?_, Nat.succ_pos _, Nat.le_refl _⟩, rfl, rfl, hmod⟩
            show (s.data.set i ⟨s.generation + 1, v⟩)[i % u32SIZE]?
              = some ⟨s.generation + 1, v⟩
            rw [hmodeq]
            exact List.getElem?_set_self hilt
        · rw [add_eq_notEmpty s v hg hpop hslot hemp] at h
          exact absurd (congrArg Prod.fst h) (by simp)

/-! ## The claims -/

/-- C1: every SlotMap state reachable from a successful `SlotMap::new` by
any sequence of `add`, `get`, `get_mut`, `remove` and `get_unique_key`
calls satisfies the invariant: `data.len() <= max_slots`; `openlist`
contains exactly the indices of the currently-empty slots of `data`, with
no duplicates; and the occupied count equals
`data.len() - openlist.len()`, which is what `len()` returns.  Moreover
the generation counter never decreases across any call, and each
successful `add` or `get_unique_key` consumes its minted generation: the
returned key carries generation `counter + 1` and the counter itself
advances to `counter + 1`.  With monotonicity this puts every mint
strictly above every generation minted before — so a generation is never
reused, even across failures. -/
theorem C1_reachable_invariants (V : Type) [Inhabited V] :
    (∀ s : SlotMap V, Reachable s →
      Inv s ∧ occupiedCount s = SlotMap.len s) ∧
    (∀ (s : SlotMap V) (op : Op V),
      s.generation ≤ (applyOp op s).generation) ∧
    (∀ (s s' : SlotMap V) (v : V) (k : Key),
      s.add v = (Except.ok k, s') →
        k.generation = s.generation + 1 ∧
        s'.generation = s.generation + 1) ∧
    (∀ (s s' : SlotMap V) (k : Key),
      s.get_unique_key = (Except.ok k, s') →
        k.generation = s.generation + 1 ∧
        s'.generation = s.generation + 1) := by
  refine ⟨?_, ?_, ?_, ?_⟩
  · intro s hs
    have hInv := inv_reachable s hs
    refine ⟨hInv, ?_⟩
    have hocc := hInv.occ
    unfold SlotMap.len
    omega
  · intro s op
    exact applyOp_gen_mono op s
  · intro s s' v k h
    exact ⟨(add_ok_mint h).1, (add_ok_mint h).2.2.2⟩
  · intro s s' k h
    obtain ⟨hk, hs', -⟩ := get_unique_key_ok h
    exact ⟨by rw [hk], by rw [hs']⟩

/-- Witness for C1 at the concrete reachable state obtained from
`SlotMap::new(1, 3)` followed by `add 5`. -/
theorem C1_reachable_invariants_witness :
    occupiedCount (⟨3, 1, [⟨1, 5⟩], []⟩ : SlotMap Nat)
      = SlotMap.len (⟨3, 1, [⟨1, 5⟩], []⟩ : SlotMap Nat) :=
  ((C1_reachable_invariants Nat).1 _
    (Reachable.step _ (Op.add 5)
      (Reachable.base 1 3 _ (by decide) (by decide) rfl))).2

/-- C2: if `add v` succeeds returning key `k`, `get k` called immediately
afterward returns `v`.  The hypothesis `data.len() < 2^32` reflects the
`u32` index domain of the Rust code; every state constructed through the
public API satisfies it. -/
theorem C2_add_then_get (V : Type) [Inhabited V] (s s' : SlotMap V)
    (v : V) (k : Key) (hlen : s.data.length < u32SIZE)
    (h : s.add v = (Except.ok k, s')) : s'.get k = some v :=
  keyLive_get (add_ok_keyLive hlen h).1

/-- Witness for C2: adding `7` to the empty map `new(2, 2)` yields key
`(0, 1)` and `get` on the result finds `7`. -/
theorem C2_add_then_get_witness :
    (⟨2, 1, [⟨1, 7⟩], []⟩ : SlotMap Nat).get ⟨0, 1⟩ = some 7 :=
  C2_add_then_get Nat ⟨2, 0, [], []⟩ _ 7 ⟨0, 1⟩ (by decide) rfl

/-- C3: if `add v` succeeds returning key `k`, then after any sequence of
further calls none of which is `remove k`, the first `remove k` returns
the original value `v`; and from then on — after any further sequence of
calls whatsoever — a second `remove k` and any `get k` return `None`. -/
theorem C3_remove_exactly_once (V : Type) [Inhabited V]
    (s0 s1 : SlotMap V) (v : V) (k : Key) (ops ops2 : List (Op V))
    (hlen : s0.data.length < u32SIZE)
    (hadd : s0.add v = (Except.ok k, s1))
    (hops : ∀ op ∈ ops, op ≠ Op.remove k) :
    ((runOps ops s1).remove k).1 = some v ∧
    (runOps ops2 ((runOps ops s1).remove k).2).get k = none ∧
    (runOps ops2 ((runOps ops s1).remove k).2).get_mut k = none ∧
    ((runOps ops2 ((runOps ops s1).remove k).2).remove k).1 = none := by
  have hlive := (add_ok_keyLive hlen hadd).1
  have hlive2 := keyLive_runOps ops hops hlive
  obtain ⟨hfst, hstale⟩ := keyLive_remove hlive2
  have hstale2 := staleKey_runOps ops2 hstale
  refine ⟨hfst, staleKey_get hstale2, ?_, ?_⟩
  · rw [get_mut_eq_get]
    exact staleKey_get hstale2
  · rw [staleKey_remove hstale2]

/-- Witness for C3: add `7` to `new(2, 2)`, interpose an `add 8` and then
a `get_unique_key`, and check the remove/get outcomes concretely. -/
theorem C3_remove_exactly_once_witness :
    ((runOps [Op.add 8] (⟨2, 1, [⟨1, 7⟩], []⟩ : SlotMap Nat)).remove
      ⟨0, 1⟩).1 = some 7 ∧
    (runOps [Op.get_unique_key]
      ((runOps [Op.add 8] (⟨2, 1, [⟨1, 7⟩], []⟩ : SlotMap Nat)).remove
        ⟨0, 1⟩).2).get ⟨0, 1⟩ = none ∧
    (runOps [Op.get_unique_key]
      ((runOps [Op.add 8] (⟨2, 1, [⟨1, 7⟩], []⟩ : SlotMap Nat)).remove
        ⟨0, 1⟩).2).get_mut ⟨0, 1⟩ = none ∧
    ((runOps [Op.get_unique_key]
      ((runOps [Op.add 8] (⟨2, 1, [⟨1, 7⟩], []⟩ : SlotMap Nat)).remove
        ⟨0, 1⟩).2).remove ⟨0, 1⟩).1 = none :=
  C3_remove_exactly_once Nat ⟨2, 0, [], []⟩ ⟨2, 1, [⟨1, 7⟩], []⟩ 7 ⟨0, 1⟩
    [Op.add 8] [Op.get_unique_key] (by decide) rfl (by decide)

/-- C4: after `add a = k1`, a successful `remove k1` and then a successful
`add b = k2`, the new key reuses the freed index (`k2.index = k1.index`),
its generation is exactly one more than `k1`'s (hence strictly greater),
and the stale key `k1` no longer resolves: `get`, `get_mut` and `remove`
with `k1` all return `None` and leave the map unchanged. -/
theorem C4_slot_reuse (V : Type) [Inhabited V] (s0 s1 s3 : SlotMap V)
    (a b : V) (k1 k2 : Key)
    (hlen : s0.data.length < u32SIZE)
    (h1 : s0.add a = (Except.ok k1, s1))
    (h2 : (s1.remove k1).2.add b = (Except.ok k2, s3)) :
    (s1.remove k1).1 = some a ∧
    k2.index = k1.index ∧
    k2.generation = k1.generation + 1 ∧
    s3.get k1 = none ∧ s3.get_mut k1 = none ∧
    s3.remove k1 = (none, s3) := by
  obtain ⟨hlive1, hk1gen, hs1gen, hk1ne⟩ := add_ok_keyLive hlen h1
  obtain ⟨hrfst, hstale⟩ := keyLive_remove hlive1
  obtain ⟨hdata1, hk1pos, hk1le⟩ := hlive1
  obtain ⟨hk1lt, -⟩ := List.getElem?_eq_some_iff.mp hdata1
  have hk1size : k1.index < u32SIZE := (add_ok_mint h1).2.2.1
  have hrm := remove_eq_hit s1 k1 hdata1 hk1pos rfl
  -- the stale key never resolves in s3
  have hstale3 : StaleKey s3 k1 := by
    have hst := staleKey_applyOp (Op.add b) hstale
    rw [applyOp] at hst
    rw [congrArg Prod.snd h2] at hst
    exact hst
  -- analyse the second add: it pops the just-freed index
  rw [hrm] at h2
  simp only at h2
  by_cases hg2 : s1.generation = u32MAX
  · rw [add_eq_maxgen _ b (by exact hg2)] at h2
    exact absurd (congrArg Prod.fst h2) (by simp)
  · have hpop2 : vecPop (s1.openlist ++ [k1.index])
        = some (k1.index, s1.openlist) := by
      unfold vecPop
      rw [List.getLast?_concat, List.dropLast_concat]
    have hslot2 : (s1.data.set k1.index (⟨0, default⟩ : Slot V))[k1.index]?
        = some ⟨0, default⟩ := List.getElem?_set_self hk1lt
    rw [add_eq_reuse _ b (by exact hg2) hpop2 hslot2 rfl] at h2
    have hkey := congrArg Prod.fst h2
    simp only at hkey
    obtain ⟨hk2, -⟩ := Key.new_ok hkey
    have hmod : k1.index % u32SIZE = k1.index := Nat.mod_eq_of_lt hk1size
    refine ⟨hrfst, ?_, ?_, staleKey_get hstale3, ?_, staleKey_remove hstale3⟩
    · rw [hk2]
      exact hmod
    · rw [hk2]
      show s1.generation + 1 = k1.generation + 1
      omega
    · rw [get_mut_eq_get]
      exact staleKey_get hstale3

/-- Witness for C4 on `new(2, 2)` with `a = 3`, `b = 7`: the freed index 0
is reused with generation 2, and the stale key `(0, 1)` yields `None`. -/
theorem C4_slot_reuse_witness :
    ((⟨2, 1, [⟨1, 3⟩], []⟩ : SlotMap Nat).remove ⟨0, 1⟩).1 = some 3 ∧
    (Key.mk 0 2).index = (Key.mk 0 1).index ∧
    (Key.mk 0 2).generation = (Key.mk 0 1).generation + 1 ∧
    (⟨2, 2, [⟨2, 7⟩], []⟩ : SlotMap Nat).get ⟨0, 1⟩ = none ∧
    (⟨2, 2, [⟨2, 7⟩], []⟩ : SlotMap Nat).get_mut ⟨0, 1⟩ = none ∧
    (⟨2, 2, [⟨2, 7⟩], []⟩ : SlotMap Nat).remove ⟨0, 1⟩
      = (none, ⟨2, 2, [⟨2, 7⟩], []⟩) :=
  C4_slot_reuse Nat ⟨2, 0, [], []⟩ ⟨2, 1, [⟨1, 3⟩], []⟩
    ⟨2, 2, [⟨2, 7⟩], []⟩ 3 7 ⟨0, 1⟩ ⟨0, 2⟩ (by decide) rfl rfl

/-- A full one-slot map whose generation counter is exhausted: one
occupied slot, empty free list, `generation = u32::MAX`. -/
def c5ExhaustedState : SlotMap Nat := ⟨1, u32MAX, [⟨1, 0⟩], []⟩

/-- C5 counterexample: a state with empty free list and
`data.len() = max_slots` on which `add` does NOT return `NoFreeSlots` —
the generation counter is exhausted, so `add` fails with
`MaxGenerationReached` before ever reaching the capacity check.  The
state satisfies the full `SlotMap` invariant. -/
theorem C5_counterexample :
    c5ExhaustedState.openlist = [] ∧
    c5ExhaustedState.data.length = c5ExhaustedState.max_slots ∧
    (c5ExhaustedState.add 0).1 = Except.error Error.MaxGenerationReached ∧
    (c5ExhaustedState.add 0).1 ≠ Except.error Error.NoFreeSlots ∧
    Inv c5ExhaustedState :=
  ⟨rfl, rfl, rfl,
    fun hc => absurd
      (show Except.error Error.MaxGenerationReached
          = (Except.error Error.NoFreeSlots : Except Error Key) from hc)
      (by simp),
    ⟨by decide, by decide, by decide, by decide, by decide, by decide⟩⟩

/-- C5 (amended): for an invariant-satisfying map, `add` returns
`Err(NoFreeSlots)` exactly when the generation counter is not yet
exhausted, the free list is empty and `data.len() == max_slots`; and on
this failure the generation counter has still been incremented (the
minted generation is consumed) while nothing else changed, so no value
was stored. -/
theorem C5_no_free_slots (V : Type) [Inhabited V] (s : SlotMap V) (v : V)
    (hInv : Inv s) :
    ((s.add v).1 = Except.error Error.NoFreeSlots ↔
      (s.generation ≠ u32MAX ∧ s.openlist = [] ∧
        s.data.length = s.max_slots)) ∧
    ((s.add v).1 = Except.error Error.NoFreeSlots →
      (s.add v).2 = { s with generation := s.generation + 1 }) := by
  by_cases hg : s.generation = u32MAX
  · rw [add_eq_maxgen s v hg]
    refine ⟨⟨?_, ?_⟩, ?_⟩
    · intro h
      simp at h
    · rintro ⟨hg2, -, -⟩
      exact absurd hg hg2
    · intro h
      simp at h
  · cases hpop : vecPop s.openlist with
    | none =>
      have hol : s.openlist = [] := vecPop_eq_none.mp hpop
      by_cases hfull : s.max_slots ≤ s.data.length
      · rw [add_eq_full s v hg hpop hfull]
        have hlen := hInv.lenLe
        exact ⟨⟨fun _ => ⟨hg, hol, by omega⟩, fun _ => rfl⟩, fun _ => rfl⟩
      · push_neg at hfull
        rw [add_eq_append s v hg hpop hfull]
        refine ⟨⟨?_, ?_⟩, ?_⟩
        · intro h
          simp only at h
          unfold Key.new at h
          by_cases hmod : s.data.length % u32SIZE = u32MAX
          · rw [if_pos hmod] at h
            simp at h
          · rw [if_neg hmod] at h
            simp at h
        · rintro ⟨-, -, hfull2⟩
          omega
        · intro h
          simp only at h
          unfold Key.new at h
          by_cases hmod : s.data.length % u32SIZE = u32MAX
          · rw [if_pos hmod] at h
            simp at h
          · rw [if_neg hmod] at h
            simp at h
    | some pair =>
      obtain ⟨i, rest⟩ := pair
      have hne : s.openlist ≠ [] := by
        intro hnil
        rw [vecPop_eq_none.mpr hnil] at hpop
        exact absurd hpop (by simp)
      cases hslot : s.data[i]? with
      | none =>
        rw [add_eq_oob s v hg hpop hslot]
        refine ⟨⟨?_, ?_⟩, ?_⟩
        · intro h
          simp at h
        · rintro ⟨-, hol, -⟩
          exact absurd hol hne
        · intro h
          simp at h
      | some slot =>
        by_cases hemp : slot.generation = 0
        · rw [add_eq_reuse s v hg hpop hslot hemp]
          refine ⟨⟨?_, ?_⟩, ?_⟩
          · intro h
            simp only at h
            unfold Key.new at h
            by_cases hmod : i % u32SIZE = u32MAX
            · rw [if_pos hmod] at h
              simp at h
            · rw [if_neg hmod] at h
              simp at h
          · rintro ⟨-, hol, -⟩
            exact absurd hol hne
          · intro h
            simp only at h
            unfold Key.new at h
            by_cases hmod : i % u32SIZE = u32MAX
            · rw [if_pos hmod] at h
              simp at h
            · rw [if_neg hmod] at h
              simp at h
        · rw [add_eq_notEmpty s v hg hpop hslot hemp]
          refine ⟨⟨?_, ?_⟩, ?_⟩
          · intro h
            simp at h
          · rintro ⟨-, hol, -⟩
            exact absurd hol hne
          · intro h
            simp at h

/-- Witness for C5 (amended), realising the spec scenario: starting from
`SlotMap::new(2, 4)` (the map `⟨4, 0, [], []⟩`), four successive `add`
calls succeed and a fifth returns `NoFreeSlots`, with the generation
counter still advanced to 5. -/
theorem C5_no_free_slots_witness :
    ((⟨4, 0, [], []⟩ : SlotMap Nat).add 1).1 = Except.ok ⟨0, 1⟩ ∧
    (((⟨4, 0, [], []⟩ : SlotMap Nat).add 1).2.add 2).1
      = Except.ok ⟨1, 2⟩ ∧
    ((((⟨4, 0, [], []⟩ : SlotMap Nat).add 1).2.add 2).2.add 3).1
      = Except.ok ⟨2, 3⟩ ∧
    (((((⟨4, 0, [], []⟩ : SlotMap Nat).add 1).2.add 2).2.add 3).2.add
      4).1 = Except.ok ⟨3, 4⟩ ∧
    ((((((⟨4, 0, [], []⟩ : SlotMap Nat).add 1).2.add 2).2.add 3).2.add
      4).2.add 9).1 = Except.error Error.NoFreeSlots ∧
    ((((((⟨4, 0, [], []⟩ : SlotMap Nat).add 1).2.add 2).2.add 3).2.add
      4).2.add 9).2.generation = 5 := by
  have h := C5_no_free_slots Nat
    (((((⟨4, 0, [], []⟩ : SlotMap Nat).add 1).2.add 2).2.add 3).2.add 4).2
    9 ⟨by decide, by decide, by decide, by decide, by decide, by decide⟩
  have hfails := h.1.mpr ⟨by decide, by decide, by decide⟩
  refine ⟨rfl, rfl, rfl, rfl, hfails, ?_⟩
  rw [h.2 hfails]
  rfl

/-- C6: `add` and `get_unique_key` fail with `MaxGenerationReached`
exactly when the generation counter already equals `u32::MAX`; on this
failure the whole state (counter included) is unchanged, so once the
counter is exhausted neither operation can ever mint a key again. -/
theorem C6_max_generation (V : Type) [Inhabited V] (s : SlotMap V)
    (v : V) :
    ((s.add v).1 = Except.error Error.MaxGenerationReached ↔
      s.generation = u32MAX) ∧
    (s.get_unique_key.1 = Except.error Error.MaxGenerationReached ↔
      s.generation = u32MAX) ∧
    (s.generation = u32MAX →
      s.add v = (Except.error Error.MaxGenerationReached, s) ∧
      s.get_unique_key = (Except.error Error.MaxGenerationReached, s)) := by
  refine ⟨⟨?_, ?_⟩, ⟨?_, ?_⟩, ?_⟩
  · intro h
    by_cases hg : s.generation = u32MAX
    · exact hg
    · exfalso
      cases hpop : vecPop s.openlist with
      | none =>
        by_cases hfull : s.max_slots ≤ s.data.length
        · rw [add_eq_full s v hg hpop hfull] at h
          simp at h
        · push_neg at hfull
          rw [add_eq_append s v hg hpop hfull] at h
          simp only at h
          unfold Key.new at h
          by_cases hmod : s.data.length % u32SIZE = u32MAX
          · rw [if_pos hmod] at h
            simp at h
          · rw [if_neg hmod] at h
            simp at h
      | some pair =>
        obtain ⟨i, rest⟩ := pair
        cases hslot : s.data[i]? with
        | none =>
          rw [add_eq_oob s v hg hpop hslot] at h
          simp at h
        | some slot =>
          by_cases hemp : slot.generation = 0
          · rw [add_eq_reuse s v hg hpop hslot hemp] at h
            simp only at h
            unfold Key.new at h
            by_cases hmod : i % u32SIZE = u32MAX
            · rw [if_pos hmod] at h
              simp at h
            · rw [if_neg hmod] at h
              simp at h
          · rw [add_eq_notEmpty s v hg hpop hslot hemp] at h
            simp at h
  · intro hg
    rw [add_eq_maxgen s v hg]
  · intro h
    by_cases hg : s.generation = u32MAX
    · exact hg
    · rw [get_unique_key_eq_ok s hg] at h
      simp at h
  · intro hg
    rw [get_unique_key_eq_maxgen s hg]
  · intro hg
    exact ⟨add_eq_maxgen s v hg, get_unique_key_eq_maxgen s hg⟩

/-- Witness for C6 on a concrete exhausted map. -/
theorem C6_max_generation_witness :
    (⟨2, u32MAX, [], []⟩ : SlotMap Nat).add 0
      = (Except.error Error.MaxGenerationReached, ⟨2, u32MAX, [], []⟩) ∧
    (⟨2, u32MAX, [], []⟩ : SlotMap Nat).get_unique_key
      = (Except.error Error.MaxGenerationReached, ⟨2, u32MAX, [], []⟩) :=
  (C6_max_generation Nat ⟨2, u32MAX, [], []⟩ 0).2.2 rfl

theorem Key.toBits_mod (k : Key) :
    k.toBits % u32SIZE = k.index % u32SIZE := by
  unfold Key.toBits u32SIZE
  omega

/-- C7: every key minted by a successful `get_unique_key` has the sentinel
index `u32::MAX`; it differs (by bit-pattern equality of the packed u64
form) from every key any `add` can ever return, because `add` never mints
the sentinel index; and against any invariant-satisfying map it never
resolves: `get`, `get_mut` and `remove` all return `None` and leave the
map unchanged. -/
theorem C7_unique_key (V : Type) [Inhabited V] (s s' : SlotMap V)
    (k : Key) (h : s.get_unique_key = (Except.ok k, s')) :
    k.index = u32MAX ∧
    (∀ (t t' : SlotMap V) (w : V) (k2 : Key),
      t.add w = (Except.ok k2, t') → k.toBits ≠ k2.toBits ∧ k ≠ k2) ∧
    (∀ t : SlotMap V, Inv t →
      t.get k = none ∧ t.get_mut k = none ∧ t.remove k = (none, t)) := by
  obtain ⟨hk, hs', hg⟩ := get_unique_key_ok h
  subst hk
  refine ⟨rfl, ?_, ?_⟩
  · intro t t' w k2 hadd
    obtain ⟨-, hk2ne, hk2lt, -⟩ := add_ok_mint hadd
    have hbits : Key.toBits ⟨u32MAX, s.generation + 1⟩ % u32SIZE = u32MAX := by
      rw [Key.toBits_mod]
      show u32MAX % u32SIZE = u32MAX
      decide
    constructor
    · intro heq
      have h2 : Key.toBits k2 % u32SIZE = k2.index := by
        rw [Key.toBits_mod]
        exact Nat.mod_eq_of_lt hk2lt
      rw [heq, h2] at hbits
      exact hk2ne hbits
    · intro heq
      exact hk2ne (by rw [← heq])
  · intro t hInv
    have hnone : t.data[(⟨u32MAX, s.generation + 1⟩ : Key).index]? = none := by
      apply List.getElem?_eq_none
      show t.data.length ≤ u32MAX
      have h1 := hInv.lenLe
      have h2 := hInv.maxLt
      omega
    refine ⟨get_eq_oob t _ hnone, ?_, remove_eq_oob t _ hnone⟩
    rw [get_mut_eq_get]
    exact get_eq_oob t _ hnone

/-- Witness for C7: the unique key minted on `new(2, 2)` has the sentinel
index, differs in bit pattern from the key `add 5` returns, and does not
resolve on the map holding that value. -/
theorem C7_unique_key_witness :
    (Key.mk u32MAX 1).index = u32MAX ∧
    Key.toBits ⟨u32MAX, 1⟩ ≠ Key.toBits ⟨0, 1⟩ ∧
    (⟨2, 1, [⟨1, 5⟩], []⟩ : SlotMap Nat).get ⟨u32MAX, 1⟩ = none := by
  have h := C7_unique_key Nat ⟨2, 0, [], []⟩ ⟨2, 1, [], []⟩ ⟨u32MAX, 1⟩ rfl
  exact ⟨h.1,
    (h.2.1 ⟨2, 0, [], []⟩ ⟨2, 1, [⟨1, 5⟩], []⟩ 5 ⟨0, 1⟩ rfl).1,
    (h.2.2 ⟨2, 1, [⟨1, 5⟩], []⟩
      ⟨by decide, by decide, by decide, by decide, by decide,
        by decide⟩).1⟩

/-- C8: on any state satisfying the free-list invariant (together with the
structural bounds every constructed map has), `add` can never return the
defensive errors `SlotNotEmpty` or `IndexOutOfBounds`: a popped free-list
entry always addresses an in-range, empty slot, and the key built for it
is never the sentinel. -/
theorem C8_defensive_unreachable (V : Type) [Inhabited V] (s : SlotMap V)
    (v : V) (hInv : Inv s) :
    (s.add v).1 ≠ Except.error Error.SlotNotEmpty ∧
    (s.add v).1 ≠ Except.error Error.IndexOutOfBounds := by
  have hsz : u32SIZE = u32MAX + 1 := by decide
  by_cases hg : s.generation = u32MAX
  · rw [add_eq_maxgen s v hg]
    exact ⟨by simp, by simp⟩
  · cases hpop : vecPop s.openlist with
    | none =>
      by_cases hfull : s.max_slots ≤ s.data.length
      · rw [add_eq_full s v hg hpop hfull]
        exact ⟨by simp, by simp⟩
      · push_neg at hfull
        rw [add_eq_append s v hg hpop hfull]
        have h1 := hInv.maxLt
        have hmod : s.data.length % u32SIZE = s.data.length :=
          Nat.mod_eq_of_lt (by omega)
        have hKey : Key.new s.data.length (s.generation + 1)
            = Except.ok ⟨s.data.length, s.generation + 1⟩ := by
          unfold Key.new
          rw [if_neg (by omega), hmod]
        rw [hKey]
        exact ⟨by simp, by simp⟩
    | some pair =>
      obtain ⟨i, rest⟩ := pair
      have hdec := vecPop_eq_some hpop
      have hmem : i ∈ s.openlist := by
        rw [hdec]
        exact List.mem_append_right _ (by simp)
      have hemp := hInv.memEmpty i hmem
      obtain ⟨slot, hslot, hgen0⟩ := isEmptyAtL_true_iff.mp hemp
      obtain ⟨hilt, -⟩ := List.getElem?_eq_some_iff.mp hslot
      rw [add_eq_reuse s v hg hpop hslot hgen0]
      have h1 := hInv.lenLe
      have h2 := hInv.maxLt
      have hmod : i % u32SIZE = i := Nat.mod_eq_of_lt (by omega)
      have hKey : Key.new i (s.generation + 1)
          = Except.ok ⟨i, s.generation + 1⟩ := by
        unfold Key.new
        rw [if_neg (by omega), hmod]
      rw [hKey]
      exact ⟨by simp, by simp⟩

/-- Witness for C8 on the empty map from `new(2, 2)`. -/
theorem C8_defensive_unreachable_witness :
    ((⟨2, 0, [], []⟩ : SlotMap Nat).add 5).1
      ≠ Except.error Error.SlotNotEmpty ∧
    ((⟨2, 0, [], []⟩ : SlotMap Nat).add 5).1
      ≠ Except.error Error.IndexOutOfBounds :=
  C8_defensive_unreachable Nat ⟨2, 0, [], []⟩ 5
    ⟨by decide, by decide, by decide, by decide, by decide, by decide⟩

/-- C9: free-slot reuse is last-freed-first-reused.  When the free list is
`l ++ [i]` (so `i` is the most recently pushed index not yet reused), a
successful `add` stores the new value at index `i`, returns a key with
index `i`, and leaves the free list at `l`; and every successful `remove`
pushes exactly the removed index at the end of the free list. -/
theorem C9_lifo_reuse (V : Type) [Inhabited V] (s s' : SlotMap V) (v : V)
    (l : List Nat) (i : Nat) (k : Key) (hInv : Inv s)
    (hol : s.openlist = l ++ [i]) (h : s.add v = (Except.ok k, s')) :
    (k.index = i ∧ s'.data[i]? = some ⟨s.generation + 1, v⟩ ∧
      s'.openlist = l) ∧
    (∀ (t t' : SlotMap V) (k0 : Key) (w : V),
      t.remove k0 = (some w, t') →
        t'.openlist = t.openlist ++ [k0.index]) := by
  constructor
  · have hpop : vecPop s.openlist = some (i, l) := by
      rw [hol]
      unfold vecPop
      rw [List.getLast?_concat, List.dropLast_concat]
    have hmem : i ∈ s.openlist := by
      rw [hol]
      exact List.mem_append_right _ (by simp)
    have hemp := hInv.memEmpty i hmem
    obtain ⟨slot, hslot, hgen0⟩ := isEmptyAtL_true_iff.mp hemp
    obtain ⟨hilt, -⟩ := List.getElem?_eq_some_iff.mp hslot
    by_cases hg : s.generation = u32MAX
    · rw [add_eq_maxgen s v hg] at h
      exact absurd (congrArg Prod.fst h) (by simp)
    · rw [add_eq_reuse s v hg hpop hslot hgen0] at h
      have hkey := congrArg Prod.fst h
      have hst := congrArg Prod.snd h
      simp only at hkey hst
      obtain ⟨hk, -⟩ := Key.new_ok hkey
      have h1 := hInv.lenLe
      have h2 := hInv.maxLt
      have hsz : u32SIZE = u32MAX + 1 := by decide
      have hmod : i % u32SIZE = i := Nat.mod_eq_of_lt (by omega)
      refine ⟨?_, ?_, ?_⟩
      · rw [hk]
        exact hmod
      · rw [← hst]
        show (s.data.set i ⟨s.generation + 1, v⟩)[i]?
          = some ⟨s.generation + 1, v⟩
        exact List.getElem?_set_self hilt
      · rw [← hst]
  · intro t t' k0 w hrm
    cases hslot : t.data[k0.index]? with
    | none =>
      rw [remove_eq_oob t k0 hslot] at hrm
      exact absurd (congrArg Prod.fst hrm) (by simp)
    | some slot =>
      by_cases hcond : 0 < slot.generation ∧ k0.generation = slot.generation
      · rw [remove_eq_hit t k0 hslot hcond.1 hcond.2] at hrm
        have hsnd := congrArg Prod.snd hrm
        simp only at hsnd
        rw [← hsnd]
      · rw [remove_eq_stale t k0 hslot hcond] at hrm
        exact absurd (congrArg Prod.fst hrm) (by simp)

/-- Witness for C9: with free list `[0, 1]` (index 1 freed last), `add 7`
reuses index 1; and a concrete `remove` pushes its index at the end. -/
theorem C9_lifo_reuse_witness :
    ((Key.mk 1 3).index = 1 ∧
      (⟨3, 3, [⟨0, 9⟩, ⟨3, 7⟩], [0]⟩ : SlotMap Nat).data[1]?
        = some ⟨3, 7⟩ ∧
      (⟨3, 3, [⟨0, 9⟩, ⟨3, 7⟩], [0]⟩ : SlotMap Nat).openlist = [0]) ∧
    (⟨2, 2, [⟨0, 0⟩], [0]⟩ : SlotMap Nat).openlist
      = (⟨2, 2, [⟨2, 4⟩], []⟩ : SlotMap Nat).openlist
          ++ [(Key.mk 0 2).index] := by
  have h := C9_lifo_reuse Nat ⟨3, 2, [⟨0, 9⟩, ⟨0, 8⟩], [0, 1]⟩
    ⟨3, 3, [⟨0, 9⟩, ⟨3, 7⟩], [0]⟩ 7 [0] 1 ⟨1, 3⟩
    ⟨by decide, by decide, by decide, by decide, by decide, by decide⟩
    rfl rfl
  exact ⟨h.1, h.2 ⟨2, 2, [⟨2, 4⟩], []⟩ ⟨2, 2, [⟨0, 0⟩], [0]⟩ ⟨0, 2⟩ 4 rfl⟩

/-- C10: a key whose generation field is 0 (constructible by the caller
through the `From<u64>` conversion, never returned by `add`) can never
resolve: `get`, `get_mut` and `remove` all return `None` and the map is
unchanged, because both the empty-slot guard (`generation > 0`) and the
occupied-slot stamp (`generation > 0`) exclude a match with 0. -/
theorem C10_zero_generation (V : Type) [Inhabited V] (s : SlotMap V)
    (k : Key) (h : k.generation = 0) :
    s.get k = none ∧ s.get_mut k = none ∧ s.remove k = (none, s) := by
  cases hslot : s.data[k.index]? with
  | none =>
    refine ⟨get_eq_oob s k hslot, ?_, remove_eq_oob s k hslot⟩
    rw [get_mut_eq_get]
    exact get_eq_oob s k hslot
  | some slot =>
    have hcond : ¬(0 < slot.generation ∧
        k.generation = slot.generation) := by
      rintro ⟨h1, h2⟩
      omega
    refine ⟨get_eq_stale s k hslot hcond, ?_,
      remove_eq_stale s k hslot hcond⟩
    rw [get_mut_eq_get]
    exact get_eq_stale s k hslot hcond

/-- Witness for C10 with the zero-generation key `From(12345u64)` against
a map with one occupied slot. -/
theorem C10_zero_generation_witness :
    (⟨2, 1, [⟨1, 7⟩], []⟩ : SlotMap Nat).get (Key.ofU64 12345) = none ∧
    (⟨2, 1, [⟨1, 7⟩], []⟩ : SlotMap Nat).get_mut (Key.ofU64 12345)
      = none ∧
    (⟨2, 1, [⟨1, 7⟩], []⟩ : SlotMap Nat).remove (Key.ofU64 12345)
      = (none, ⟨2, 1, [⟨1, 7⟩], []⟩) :=
  C10_zero_generation Nat ⟨2, 1, [⟨1, 7⟩], []⟩ (Key.ofU64 12345)
    (by decide)

end SlotmapModel
